import Mathlib

/-! # Verification of the resilience core of paper-search-mcp-nodejs

Shallow embedding (in Lean 4) of the rate-limiting / retry / caching /
quota / mirror-selection core of the repository, together with proofs of
the behavioural claims stated in its specification.

Conventions used throughout:
* JavaScript numbers used as counters or millisecond values are embedded
  as `Nat`; values that may be negative (configured limits) as `Int`;
  fractional token counts as `ℚ`.
* Stateful classes become explicit state types plus state-passing
  functions; `Map` becomes an association list; `throw` becomes an
  `Option`/`Except`-style result.
* UTC calendar dates (`dayKey` strings such as "2026-10-11") are embedded
  as `Nat` day indices; the code only ever compares day keys for
  (in)equality and adds one day, both of which the index preserves.
-/

namespace PaperSearch

/-! ## Error classification (src/utils/ErrorHandler.ts)

`ApiError.isRetryable` and `ErrorHandler.isRetryable` both classify an
error from its optional HTTP status.  In the JavaScript source the test
is `if (!status) return true` followed by
`[408, 429, 500, 502, 503, 504].includes(status)`; note that `!status`
is also true for a status of `0`, which we embed faithfully. -/

/-- Statuses the source lists as retryable (rate limits, timeouts, server
errors). -/
def retryableStatuses : List Nat := [408, 429, 500, 502, 503, 504]

/-- Embeds `ErrorHandler.isRetryable` / `ApiError.isRetryable`: an error
with no HTTP status (network-level failure; in JS also status `0`, which
is falsy) is retryable, otherwise exactly the statuses in
`retryableStatuses` are. -/
def isRetryableStatus : Option Nat → Bool
  | none => true
  | some s => if s = 0 then true else retryableStatuses.contains s

/-- Outcome of one failed attempt: the optional HTTP status of the
response and the optional `Retry-After` hint (in seconds) carried by a
429 response. -/
structure Failure where
  status : Option Nat
  retryAfterSec : Option Nat
deriving DecidableEq

/-! ## Retry loop

`ErrorHandler.retryWithBackoff(attemptFn, {maxRetries, ...})` itself is
not among the repository files available here (only its unit tests,
integration tests and call sites are), so the loop is modelled from the
spec; the classification it consults is the `isRetryableStatus` embedded
from the source above.

An attempt function is embedded as `Nat → Except Failure α`, giving the
outcome of the k-th invocation (0-indexed). -/

/-- Modelled from the spec: the retry loop of
`ErrorHandler.retryWithBackoff` (its implementation file is not among
the sources; only tests and callers are).  "invokes `attemptFn` up to
`maxRetries+1` times total, returning the first success or the last
failure", retrying a failure only while retries remain and the failure
is retryable.  The first component is the returned outcome, the second
the number of invocations performed so far (`k` is the index of the
next attempt, `fuel` the number of retries still allowed). -/
def retryGo (f : Nat → Except Failure α) : Nat → Nat → Except Failure α × Nat
  | 0, k =>
    match f k with
    | .ok v => (.ok v, k + 1)
    | .error e => (.error e, k + 1)
  | fuel + 1, k =>
    match f k with
    | .ok v => (.ok v, k + 1)
    | .error e =>
      if isRetryableStatus e.status then retryGo f fuel (k + 1)
      else (.error e, k + 1)

/-- Modelled from the spec: `ErrorHandler.retryWithBackoff` run with a
retry budget of `maxRetries`; returns the final outcome and the total
number of invocations of the attempt function. -/
def retryWithBackoff (f : Nat → Except Failure α) (maxRetries : Nat) :
    Except Failure α × Nat :=
  retryGo f maxRetries 0

theorem retryGo_spec (f : Nat → Except Failure α) (fuel k : Nat) :
    (k + 1 ≤ (retryGo f fuel k).2 ∧ (retryGo f fuel k).2 ≤ k + fuel + 1)
    ∧ (∀ i, k ≤ i → i < (retryGo f fuel k).2 - 1 →
        ∃ e, f i = .error e ∧ isRetryableStatus e.status = true)
    ∧ (∀ v, (retryGo f fuel k).1 = .ok v → f ((retryGo f fuel k).2 - 1) = .ok v)
    ∧ (∀ e, (retryGo f fuel k).1 = .error e →
        f ((retryGo f fuel k).2 - 1) = .error e ∧
        (isRetryableStatus e.status = false ∨ (retryGo f fuel k).2 = k + fuel + 1)) := by
  induction fuel generalizing k with
  | zero =>
    cases hf : f k with
    | ok v =>
      have hg : retryGo f 0 k = (.ok v, k + 1) := by simp [retryGo, hf]
      rw [hg]
      refine ⟨⟨le_refl _, by omega⟩, ?_, ?_, ?_⟩
      · intro i hki hi
        omega
      · intro w hw
        simp only [Except.ok.injEq] at hw
        subst hw
        simpa using hf
      · intro e' he'
        simp at he'
    | error e =>
      have hg : retryGo f 0 k = (.error e, k + 1) := by simp [retryGo, hf]
      rw [hg]
      refine ⟨⟨le_refl _, by omega⟩, ?_, ?_, ?_⟩
      · intro i hki hi
        omega
      · intro w hw
        simp at hw
      · intro e' he'
        simp only [Except.error.injEq] at he'
        subst he'
        exact ⟨by simpa using hf, Or.inr rfl⟩
  | succ fuel ih =>
    cases hf : f k with
    | ok v =>
      have hg : retryGo f (fuel + 1) k = (.ok v, k + 1) := by simp [retryGo, hf]
      rw [hg]
      refine ⟨⟨le_refl _, by omega⟩, ?_, ?_, ?_⟩
      · intro i hki hi
        omega
      · intro w hw
        simp only [Except.ok.injEq] at hw
        subst hw
        simpa using hf
      · intro e' he'
        simp at he'
    | error e =>
      by_cases hr : isRetryableStatus e.status = true
      · have hg : retryGo f (fuel + 1) k = retryGo f fuel (k + 1) := by
          simp [retryGo, hf, hr]
        obtain ⟨⟨hlo, hhi⟩, hmid, hok, herr⟩ := ih (k + 1)
        rw [hg]
        refine ⟨⟨by omega, by omega⟩, ?_, hok, ?_⟩
        · intro i hki hi
          rcases Nat.eq_or_lt_of_le hki with h | h
          · subst h
            exact ⟨e, hf, hr⟩
          · exact hmid i h hi
        · intro e' he'
          obtain ⟨h1, h2⟩ := herr e' he'
          refine ⟨h1, ?_⟩
          rcases h2 with h2 | h2
          · exact Or.inl h2
          · exact Or.inr (by omega)
      · have hg : retryGo f (fuel + 1) k = (.error e, k + 1) := by
          simp [retryGo, hf, hr]
        rw [hg]
        refine ⟨⟨le_refl _, by omega⟩, ?_, ?_, ?_⟩
        · intro i hki hi
          omega
        · intro v hv
          simp at hv
        · intro e' he'
          simp only [Except.error.injEq] at he'
          subst he'
          exact ⟨by simpa using hf, Or.inl (by simpa using hr)⟩

/-- C1: `ErrorHandler.retryWithBackoff` invokes the attempt function at
most `maxRetries+1` times (and at least once); if it returns a success,
that success is the outcome of the last invocation and every earlier
invocation failed retryably; if it returns a failure, that failure is
the outcome of the last invocation, which was either non-retryable or
exhausted the budget, with every earlier invocation failing retryably —
so a failed attempt is retried iff it is retryable; a failure with no
HTTP status is retryable, a failure with an HTTP status (≥ 100, the
valid HTTP range) is retryable iff the status is one of 408, 429, 500,
502, 503, 504, and a non-retryable first failure surfaces after exactly
one invocation. -/
theorem c1_retryWithBackoff_classification (α : Type) (f : Nat → Except Failure α)
    (m : Nat) :
    (1 ≤ (retryWithBackoff f m).2 ∧ (retryWithBackoff f m).2 ≤ m + 1)
    ∧ (∀ v, (retryWithBackoff f m).1 = .ok v →
        f ((retryWithBackoff f m).2 - 1) = .ok v ∧
        ∀ i < (retryWithBackoff f m).2 - 1,
          ∃ e, f i = .error e ∧ isRetryableStatus e.status = true)
    ∧ (∀ e, (retryWithBackoff f m).1 = .error e →
        f ((retryWithBackoff f m).2 - 1) = .error e ∧
        (isRetryableStatus e.status = false ∨ (retryWithBackoff f m).2 = m + 1) ∧
        ∀ i < (retryWithBackoff f m).2 - 1,
          ∃ e', f i = .error e' ∧ isRetryableStatus e'.status = true)
    ∧ (∀ e, f 0 = .error e → isRetryableStatus e.status = false →
        (retryWithBackoff f m).1 = .error e ∧ (retryWithBackoff f m).2 = 1)
    ∧ (isRetryableStatus none = true ∧
        ∀ s, 100 ≤ s →
          (isRetryableStatus (some s) = true ↔ s ∈ retryableStatuses)) := by
  obtain ⟨⟨hlo, hhi⟩, hmid, hok, herr⟩ := retryGo_spec f m 0
  refine ⟨⟨hlo, by simpa using hhi⟩, ?_, ?_, ?_, ?_, ?_⟩
  · intro v hv
    exact ⟨hok v hv, fun i hi => hmid i (Nat.zero_le i) hi⟩
  · intro e he
    obtain ⟨h1, h2⟩ := herr e he
    exact ⟨h1, by simpa using h2, fun i hi => hmid i (Nat.zero_le i) hi⟩
  · intro e he0 hnr
    cases m with
    | zero =>
      constructor <;> simp [retryWithBackoff, retryGo, he0]
    | succ m =>
      constructor <;> simp [retryWithBackoff, retryGo, he0, hnr]
  · rfl
  · intro s hs
    constructor
    · intro h
      simp only [isRetryableStatus] at h
      split at h
      · omega
      · simpa [retryableStatuses] using h
    · intro h
      simp only [isRetryableStatus]
      split
      · rfl
      · simpa [retryableStatuses] using h

/-- C1 witness: a function that always fails with status 404 (not
retryable) is invoked exactly once and its failure is surfaced. -/
theorem c1_retryWithBackoff_classification_witness :
    (retryWithBackoff (fun _ => (.error ⟨some 404, none⟩ : Except Failure Nat)) 3).1 =
      .error ⟨some 404, none⟩
    ∧ (retryWithBackoff (fun _ => (.error ⟨some 404, none⟩ : Except Failure Nat)) 3).2 = 1 :=
  (c1_retryWithBackoff_classification Nat
    (fun _ => .error ⟨some 404, none⟩) 3).2.2.2.1 ⟨some 404, none⟩ rfl (by decide)

/-! ## Backoff delays (spec §4.2 / C5)

The delay computation inside `retryWithBackoff` is likewise not among
the repository files available here; the spec defines it as
`min(maxDelayMs, initialDelayMs × 2^(k−1))` plus random jitter in
`[0, delay)`, except that a 429 failure carrying a `Retry-After` hint
(in seconds) uses that hint verbatim.  `ErrorHandler.getRetryDelay` in
the source follows the same hint convention, converting the header's
seconds to milliseconds. -/

/-- Modelled from the spec: the deterministic exponential-backoff delay
(in ms) before retry `k` (1-indexed), capped at `maxDelayMs`. -/
def backoffBaseDelay (initialDelayMs maxDelayMs k : Nat) : Nat :=
  min maxDelayMs (initialDelayMs * 2 ^ (k - 1))

/-- Modelled from the spec: the actual delay slept before retry `k`, the
base delay plus a jitter value drawn from `[0, baseDelay)`. -/
def jitteredDelay (initialDelayMs maxDelayMs k jitter : Nat) : Nat :=
  backoffBaseDelay initialDelayMs maxDelayMs k + jitter

/-- Modelled from the spec: the delay chosen for a failed attempt — a 429
carrying a `Retry-After` hint of `h` seconds waits exactly `h * 1000` ms
(the hint verbatim, as `ErrorHandler.getRetryDelay` converts it);
otherwise the jittered exponential backoff applies. -/
def retryDelay (initialDelayMs maxDelayMs : Nat) (e : Failure) (k jitter : Nat) : Nat :=
  if e.status = some 429 then
    match e.retryAfterSec with
    | some h => h * 1000
    | none => jitteredDelay initialDelayMs maxDelayMs k jitter
  else jitteredDelay initialDelayMs maxDelayMs k jitter

/-- C5 counterexample: with `initialDelayMs = 100` and
`maxDelayMs = 150`, the jitter drawn from `[0, delay)` makes the claim's
conclusion false: the delay before retry 1 with jitter 99 is 199 > 150
(not bounded by `maxDelayMs`), and the delay before retry 2 with jitter
149 exceeds the delay before retry 3 with jitter 0 (successive delays
can decrease once the cap is reached). -/
theorem c5_backoff_jitter_counterexample :
    (99 < backoffBaseDelay 100 150 1 ∧ 150 < jitteredDelay 100 150 1 99)
    ∧ (149 < backoffBaseDelay 100 150 2 ∧ 0 < backoffBaseDelay 100 150 3 ∧
        jitteredDelay 100 150 3 0 < jitteredDelay 100 150 2 149) := by
  decide

/-- C5 (amended): the base delay before retry `k` equals
`min(maxDelayMs, initialDelayMs * 2^(k-1))`; the base delays are
non-decreasing in `k` and bounded by `maxDelayMs`; the jittered delay
for jitter in `[0, base)` lies in `[base, 2*base)` — so it can exceed
`maxDelayMs` by up to the jitter, and only the jitter-free base
schedule is non-decreasing; a 429 failure carrying a retry hint of `h`
seconds waits exactly `h * 1000` ms instead of the computed backoff. -/
theorem c5_backoff_delay_schedule (initialDelayMs maxDelayMs k jitter : Nat) :
    backoffBaseDelay initialDelayMs maxDelayMs k =
      min maxDelayMs (initialDelayMs * 2 ^ (k - 1))
    ∧ backoffBaseDelay initialDelayMs maxDelayMs k ≤
        backoffBaseDelay initialDelayMs maxDelayMs (k + 1)
    ∧ backoffBaseDelay initialDelayMs maxDelayMs k ≤ maxDelayMs
    ∧ (jitter < backoffBaseDelay initialDelayMs maxDelayMs k →
        backoffBaseDelay initialDelayMs maxDelayMs k ≤
            jitteredDelay initialDelayMs maxDelayMs k jitter ∧
          jitteredDelay initialDelayMs maxDelayMs k jitter <
            2 * backoffBaseDelay initialDelayMs maxDelayMs k)
    ∧ (∀ e : Failure, ∀ h, e.status = some 429 → e.retryAfterSec = some h →
        retryDelay initialDelayMs maxDelayMs e k jitter = h * 1000)
    ∧ (∀ e : Failure, e.status ≠ some 429 →
        retryDelay initialDelayMs maxDelayMs e k jitter =
          jitteredDelay initialDelayMs maxDelayMs k jitter) := by
  refine ⟨rfl, ?_, Nat.min_le_left _ _, ?_, ?_, ?_⟩
  · have h2 : (2 : Nat) ^ (k - 1) ≤ 2 ^ (k + 1 - 1) :=
      Nat.pow_le_pow_right (by omega) (by omega)
    exact min_le_min (le_refl _) (Nat.mul_le_mul_left _ h2)
  · intro hj
    unfold jitteredDelay
    omega
  · intro e h h429 hha
    unfold retryDelay
    rw [if_pos h429, hha]
  · intro e hne
    unfold retryDelay
    rw [if_neg hne]

/-- C5 (amended) witness: at `initialDelayMs = 100`, `maxDelayMs = 150`,
retry 1 with jitter 50 the jittered delay lies in `[base, 2*base)`, and
a 429 failure hinting 7 seconds waits exactly 7000 ms. -/
theorem c5_backoff_delay_schedule_witness :
    (50 < backoffBaseDelay 100 150 1
      ∧ backoffBaseDelay 100 150 1 ≤ jitteredDelay 100 150 1 50
      ∧ jitteredDelay 100 150 1 50 < 2 * backoffBaseDelay 100 150 1)
    ∧ retryDelay 100 150 ⟨some 429, some 7⟩ 1 50 = 7 * 1000 :=
  ⟨⟨by decide, ((c5_backoff_delay_schedule 100 150 1 50).2.2.2.1 (by decide)).1,
      ((c5_backoff_delay_schedule 100 150 1 50).2.2.2.1 (by decide)).2⟩,
    (c5_backoff_delay_schedule 100 150 1 50).2.2.2.2.1 ⟨some 429, some 7⟩ 7 rfl rfl⟩

/-! ## Daily quota ledger (src/utils/SecurityUtils.ts, `QuotaManager`)

The `quotas` map becomes an association list from platform name to
record; `getDayKey()` (a UTC date string) becomes a `Nat` day index and
`getNextResetTime()` (next UTC midnight) the start of day `today + 1`.
`checkQuota`/`getStatus` return their result together with the updated
state, since `resetIfNeeded` mutates the record in place. -/

/-- Embeds one entry of `QuotaManager.quotas`: `{ limit, used, dayKey }`.
`limit` is an `Int` since configured limits may be `≤ 0` (unlimited). -/
structure QuotaRec where
  limit : Int
  used : Nat
  dayKey : Nat
deriving DecidableEq

/-- Quota registry state: the `quotas` map as an association list. -/
abbrev QuotaState := List (String × QuotaRec)

/-- Map update: replace the record stored under `p`, or append it. -/
def qset : QuotaState → String → QuotaRec → QuotaState
  | [], p, r => [(p, r)]
  | (p', r') :: rest, p, r =>
    if p' = p then (p, r) :: rest else (p', r') :: qset rest p r

/-- Embeds the payload of `QuotaExhaustedError`: platform, limit and
reset time (next UTC midnight = start of day `resetAt`). -/
structure QuotaExhausted where
  platform : String
  limit : Int
  resetAt : Nat
deriving DecidableEq

/-- Embeds `QuotaStatus` as returned by `QuotaManager.getStatus`. -/
structure QuotaStatusR where
  platform : String
  used : Nat
  limit : Int
  remaining : Int
  resetAt : Nat
deriving DecidableEq

/-- Embeds `QuotaManager.registerPlatform`: the environment override (if
present and a positive number) replaces the configured daily limit; the
record starts with `used = 0` at today's day key. -/
def registerPlatform (st : QuotaState) (platform : String) (dailyLimit : Int)
    (envLimit : Option Int) (today : Nat) : QuotaState :=
  let limit :=
    match envLimit with
    | some v => if 0 < v then v else dailyLimit
    | none => dailyLimit
  qset st platform ⟨limit, 0, today⟩

/-- Embeds `QuotaManager.resetIfNeeded`: when the stored day key differs
from today's, the usage is reset to 0 and the day key updated. -/
def resetIfNeeded (today : Nat) (q : QuotaRec) : QuotaRec :=
  if q.dayKey ≠ today then { q with dayKey := today, used := 0 } else q

/-- Embeds `QuotaManager.checkQuota`: unregistered platforms pass; after
the rollover reset, unlimited platforms (`limit ≤ 0`) pass; otherwise
the check fails with `QuotaExhausted` when `used ≥ limit`. -/
def checkQuota (st : QuotaState) (platform : String) (today : Nat) :
    Option QuotaExhausted × QuotaState :=
  match st.lookup platform with
  | none => (none, st)
  | some q0 =>
    let q := resetIfNeeded today q0
    let st' := qset st platform q
    if q.limit ≤ 0 then (none, st')
    else if q.limit ≤ (q.used : Int) then
      (some ⟨platform, q.limit, today + 1⟩, st')
    else (none, st')

/-- Embeds `QuotaManager.incrementUsage`: unregistered platforms are
ignored; after the rollover reset, `used` is incremented only when
`limit > 0`. -/
def incrementUsage (st : QuotaState) (platform : String) (today : Nat) :
    QuotaState :=
  match st.lookup platform with
  | none => st
  | some q0 =>
    let q := resetIfNeeded today q0
    let q' := if 0 < q.limit then { q with used := q.used + 1 } else q
    qset st platform q'

/-- Embeds `QuotaManager.getStatus`: `null` for unregistered platforms;
otherwise the rolled-over record with `remaining = max(0, limit - used)`
and the next reset time. -/
def getStatus (st : QuotaState) (platform : String) (today : Nat) :
    Option QuotaStatusR × QuotaState :=
  match st.lookup platform with
  | none => (none, st)
  | some q0 =>
    let q := resetIfNeeded today q0
    (some ⟨platform, q.used, q.limit, max 0 (q.limit - (q.used : Int)), today + 1⟩,
      qset st platform q)

theorem resetIfNeeded_limit (today : Nat) (q : QuotaRec) :
    (resetIfNeeded today q).limit = q.limit := by
  unfold resetIfNeeded
  split <;> rfl

theorem resetIfNeeded_dayKey (today : Nat) (q : QuotaRec) :
    (resetIfNeeded today q).dayKey = today := by
  unfold resetIfNeeded
  split
  · rfl
  · rename_i h
    simpa using h

/-- C2: for a registered platform with `limit > 0`, `checkQuota` fails
if and only if `used ≥ limit` after the day-rollover reset, and the
failure carries the platform name, the limit and the next reset time;
in particular registering with `dailyLimit = 3`, incrementing three
times and checking throws, while after a UTC day rollover the usage is
0 and the check passes. -/
theorem c2_checkQuota_exhaustion (st : QuotaState) (p : String) (today : Nat)
    (q : QuotaRec) (hq : st.lookup p = some q) (hl : 0 < q.limit) :
    ((checkQuota st p today).1 ≠ none ↔
      q.limit ≤ ((resetIfNeeded today q).used : Int))
    ∧ (∀ e, (checkQuota st p today).1 = some e →
        e = ⟨p, q.limit, today + 1⟩)
    ∧ ((checkQuota
          (incrementUsage (incrementUsage (incrementUsage
            (registerPlatform [] "x" 3 none 0) "x" 0) "x" 0) "x" 0) "x" 0).1 =
        some ⟨"x", 3, 1⟩
      ∧ (checkQuota
          (incrementUsage (incrementUsage (incrementUsage
            (registerPlatform [] "x" 3 none 0) "x" 0) "x" 0) "x" 0) "x" 1).1 = none
      ∧ ((getStatus
          (incrementUsage (incrementUsage (incrementUsage
            (registerPlatform [] "x" 3 none 0) "x" 0) "x" 0) "x" 0) "x" 1).1.map
            (fun r => r.used)) = some 0) := by
  have hlim : (resetIfNeeded today q).limit = q.limit := resetIfNeeded_limit today q
  refine ⟨?_, ?_, by decide, by decide, by decide⟩
  · unfold checkQuota
    rw [hq]
    simp only []
    split
    · rename_i h
      rw [hlim] at h
      omega
    · split
      · rename_i h
        rw [hlim] at h
        simp [h]
      · rename_i h
        rw [hlim] at h
        simp [h]
  · intro e he
    unfold checkQuota at he
    rw [hq] at he
    simp only [] at he
    split at he
    · simp at he
    · split at he
      · simp only [Option.some.injEq] at he
        rw [← he, hlim]
      · simp at he

/-- C2 witness: instantiated at a one-platform registry with limit 2 and
usage 2 today, the check fails with the full error payload. -/
theorem c2_checkQuota_exhaustion_witness :
    ((checkQuota [("p", ⟨2, 2, 5⟩)] "p" 5).1 ≠ none ↔
      (2 : Int) ≤ ((resetIfNeeded 5 (⟨2, 2, 5⟩ : QuotaRec)).used : Int))
    ∧ (checkQuota [("p", ⟨2, 2, 5⟩)] "p" 5).1 ≠ none :=
  ⟨(c2_checkQuota_exhaustion [("p", ⟨2, 2, 5⟩)] "p" 5 ⟨2, 2, 5⟩ rfl (by decide)).1,
    ((c2_checkQuota_exhaustion [("p", ⟨2, 2, 5⟩)] "p" 5 ⟨2, 2, 5⟩ rfl
      (by decide)).1).2 (by decide)⟩

/-- C10: for an unregistered platform name, `checkQuota` and
`incrementUsage` return without failing and leave the registry
unchanged, and `getStatus` returns `null`. -/
theorem c10_unregistered_platform_unenforced (st : QuotaState) (p : String)
    (today : Nat) (h : st.lookup p = none) :
    checkQuota st p today = (none, st)
    ∧ incrementUsage st p today = st
    ∧ getStatus st p today = (none, st) := by
  unfold checkQuota incrementUsage getStatus
  rw [h]
  exact ⟨rfl, rfl, rfl⟩

/-! ### Reachable quota states (C9)

A reachable state is the result of folding a sequence of ledger calls
over a start state.  `checkedInc` is the check-then-increment discipline
the control flow of the system uses (increment only after a check that
did not fail on the same day). -/

/-- One ledger call: `checkQuota`, bare `incrementUsage`, `getStatus`,
or the disciplined check-then-increment composite. -/
inductive QuotaOp where
  | check (p : String) (today : Nat)
  | inc (p : String) (today : Nat)
  | status (p : String) (today : Nat)
  | checkedInc (p : String) (today : Nat)
deriving DecidableEq

/-- An op is guarded when it is not a bare `incrementUsage`. -/
def QuotaOp.guarded : QuotaOp → Bool
  | .inc _ _ => false
  | _ => true

/-- State transition of one ledger call. -/
def applyQuotaOp (st : QuotaState) : QuotaOp → QuotaState
  | .check p d => (checkQuota st p d).2
  | .inc p d => incrementUsage st p d
  | .status p d => (getStatus st p d).2
  | .checkedInc p d =>
    match checkQuota st p d with
    | (none, st') => incrementUsage st' p d
    | (some _, st') => st'

/-- Fold a sequence of ledger calls over a start state. -/
def runQuotaOps (st : QuotaState) (ops : List QuotaOp) : QuotaState :=
  ops.foldl applyQuotaOp st

/-- The claimed invariant: every registered record with a positive limit
has `used ≤ limit`. -/
def quotaInv (st : QuotaState) : Prop :=
  ∀ p q, st.lookup p = some q → 0 < q.limit → (q.used : Int) ≤ q.limit

theorem lookup_qset_self (st : QuotaState) (p : String) (r : QuotaRec) :
    (qset st p r).lookup p = some r := by
  induction st with
  | nil => simp [qset, List.lookup]
  | cons hd tl ih =>
    obtain ⟨p', r'⟩ := hd
    by_cases h : p' = p
    · simp [qset, h, List.lookup]
    · have hb : (p == p') = false :=
        beq_eq_false_iff_ne.mpr (fun hh => h hh.symm)
      simp [qset, if_neg h, List.lookup, hb, ih]

theorem lookup_qset_other (st : QuotaState) (p p' : String) (r : QuotaRec)
    (h : p' ≠ p) : (qset st p r).lookup p' = st.lookup p' := by
  have hb : (p' == p) = false := beq_eq_false_iff_ne.mpr h
  induction st with
  | nil => simp [qset, List.lookup, hb]
  | cons hd tl ih =>
    obtain ⟨p'', r''⟩ := hd
    by_cases h2 : p'' = p
    · subst h2
      simp [qset, List.lookup, hb]
    · simp [qset, if_neg h2, List.lookup, ih]

theorem qset_qset (st : QuotaState) (p : String) (r r' : QuotaRec) :
    qset (qset st p r) p r' = qset st p r' := by
  induction st with
  | nil => simp [qset]
  | cons hd tl ih =>
    obtain ⟨p'', r''⟩ := hd
    by_cases h : p'' = p
    · simp [qset, h]
    · simp [qset, if_neg h, ih]

theorem quotaInv_qset (st : QuotaState) (p : String) (r : QuotaRec)
    (hinv : quotaInv st) (hr : 0 < r.limit → (r.used : Int) ≤ r.limit) :
    quotaInv (qset st p r) := by
  intro p' q hq hl
  by_cases h : p' = p
  · subst h
    rw [lookup_qset_self] at hq
    cases hq
    exact hr hl
  · rw [lookup_qset_other st p p' r h] at hq
    exact hinv p' q hq hl

theorem resetIfNeeded_used_le (today : Nat) (q : QuotaRec) :
    (resetIfNeeded today q).used ≤ q.used := by
  unfold resetIfNeeded
  split
  · exact Nat.zero_le _
  · exact le_refl _

theorem checkQuota_state (st : QuotaState) (p : String) (d : Nat) :
    (checkQuota st p d).2 =
      match st.lookup p with
      | none => st
      | some q0 => qset st p (resetIfNeeded d q0) := by
  unfold checkQuota
  cases st.lookup p with
  | none => rfl
  | some q0 =>
    simp only []
    split
    · rfl
    · split <;> rfl

theorem getStatus_state (st : QuotaState) (p : String) (d : Nat) :
    (getStatus st p d).2 =
      match st.lookup p with
      | none => st
      | some q0 => qset st p (resetIfNeeded d q0) := by
  unfold getStatus
  cases st.lookup p with
  | none => rfl
  | some q0 => rfl

theorem resetIfNeeded_of_dayKey (d : Nat) (q : QuotaRec) (h : q.dayKey = d) :
    resetIfNeeded d q = q := by
  unfold resetIfNeeded
  rw [if_neg (by simp [h])]

theorem resetIfNeeded_idem (d : Nat) (q : QuotaRec) :
    resetIfNeeded d (resetIfNeeded d q) = resetIfNeeded d q :=
  resetIfNeeded_of_dayKey d _ (resetIfNeeded_dayKey d q)

theorem quotaInv_resetState (st : QuotaState) (p : String) (d : Nat)
    (hinv : quotaInv st) :
    quotaInv (match st.lookup p with
      | none => st
      | some q0 => qset st p (resetIfNeeded d q0)) := by
  cases h : st.lookup p with
  | none => exact hinv
  | some q0 =>
    refine quotaInv_qset st p _ hinv ?_
    intro hl
    rw [resetIfNeeded_limit] at hl ⊢
    have h1 : ((resetIfNeeded d q0).used : Int) ≤ (q0.used : Int) := by
      exact_mod_cast resetIfNeeded_used_le d q0
    exact h1.trans (hinv p q0 h hl)

/-- C9 counterexample: registering platform "x" with `dailyLimit = 3`
and then calling `incrementUsage` four times (a sequence of ledger
calls) reaches a state where `used = 4` exceeds `limit = 3`:
`incrementUsage` performs no limit check of its own. -/
theorem c9_used_le_limit_counterexample :
    (runQuotaOps (registerPlatform [] "x" 3 none 0)
        [.inc "x" 0, .inc "x" 0, .inc "x" 0, .inc "x" 0]).lookup "x" =
      some ⟨3, 4, 0⟩
    ∧ ¬ ((4 : Int) ≤ 3) := by
  refine ⟨by decide, by decide⟩

/-- C9 (amended): bare `incrementUsage` calls are not limited, so
`used ≤ limit` can be violated (see the counterexample); the invariant
does hold in every state reachable by guarded calls — `checkQuota`,
`getStatus`, and increments performed only after a same-day `checkQuota`
that did not fail — and registration preserves it. -/
theorem c9_guarded_calls_preserve_invariant (st : QuotaState)
    (ops : List QuotaOp) (hinv : quotaInv st)
    (hops : ∀ op ∈ ops, op.guarded = true) :
    quotaInv (runQuotaOps st ops)
    ∧ ∀ p l env d, quotaInv (registerPlatform st p l env d) := by
  constructor
  · induction ops generalizing st with
    | nil => exact hinv
    | cons op rest ih =>
      have hop := hops op (List.mem_cons_self op rest)
      have hrest : ∀ o ∈ rest, o.guarded = true :=
        fun o ho => hops o (List.mem_cons_of_mem op ho)
      have hstep : quotaInv (applyQuotaOp st op) := by
        cases op with
        | check p d =>
          simpa [applyQuotaOp, checkQuota_state] using
            quotaInv_resetState st p d hinv
        | inc p d => simp [QuotaOp.guarded] at hop
        | status p d =>
          simpa [applyQuotaOp, getStatus_state] using
            quotaInv_resetState st p d hinv
        | checkedInc p d =>
          simp only [applyQuotaOp]
          cases hc : checkQuota st p d with
          | mk res st' =>
            cases res with
            | some e =>
              have : st' = (checkQuota st p d).2 := by rw [hc]
              subst this
              simpa [checkQuota_state] using quotaInv_resetState st p d hinv
            | none =>
              have hst' : st' = (checkQuota st p d).2 := by rw [hc]
              subst hst'
              simp only []
              cases hl : st.lookup p with
              | none =>
                have hs : (checkQuota st p d).2 = st := by
                  rw [checkQuota_state, hl]
                rw [hs]
                unfold incrementUsage
                rw [hl]
                exact hinv
              | some q0 =>
                have hs : (checkQuota st p d).2 = qset st p (resetIfNeeded d q0) := by
                  rw [checkQuota_state, hl]
                rw [hs]
                unfold incrementUsage
                rw [lookup_qset_self]
                simp only []
                rw [resetIfNeeded_idem, qset_qset]
                refine quotaInv_qset st p _ hinv ?_
                intro hl2
                by_cases hpos : 0 < (resetIfNeeded d q0).limit
                · rw [if_pos hpos] at hl2 ⊢
                  have hok : ¬ ((resetIfNeeded d q0).limit ≤
                      ((resetIfNeeded d q0).used : Int)) := by
                    intro hge
                    have hsome : (checkQuota st p d).1 =
                        some ⟨p, (resetIfNeeded d q0).limit, d + 1⟩ := by
                      unfold checkQuota
                      rw [hl]
                      simp only []
                      rw [if_neg (by omega), if_pos hge]
                    rw [hc] at hsome
                    simp at hsome
                  simp only [] at hl2 ⊢
                  push_cast
                  omega
                · rw [if_neg hpos] at hl2
                  exact absurd hl2 hpos
      exact ih (applyQuotaOp st op) hstep hrest
  · intro p l env d
    unfold registerPlatform
    simp only []
    refine quotaInv_qset st p _ hinv ?_
    intro h
    simp only [] at h ⊢
    omega

/-- C9 (amended) witness: from the empty registry, a disciplined
check-then-increment on "x" keeps the invariant. -/
theorem c9_guarded_calls_preserve_invariant_witness :
    quotaInv (runQuotaOps [] [.checkedInc "x" 0]) ∧
      ∀ p l env d, quotaInv (registerPlatform [] p l env d) :=
  c9_guarded_calls_preserve_invariant [] [.checkedInc "x" 0]
    (by intro p q h _; simp [List.lookup] at h)
    (by decide)

/-- C10 witness: a registry holding only platform "a" ignores quota
operations on the never-registered platform "b". -/
theorem c10_unregistered_platform_unenforced_witness :
    checkQuota [("a", ⟨3, 0, 0⟩)] "b" 0 = (none, [("a", ⟨3, 0, 0⟩)])
    ∧ incrementUsage [("a", ⟨3, 0, 0⟩)] "b" 0 = [("a", ⟨3, 0, 0⟩)]
    ∧ getStatus [("a", ⟨3, 0, 0⟩)] "b" 0 = (none, [("a", ⟨3, 0, 0⟩)]) :=
  c10_unregistered_platform_unenforced [("a", ⟨3, 0, 0⟩)] "b" 0 (by decide)

/-! ## Cache keys (src/utils/RequestCache.ts, `generateKey`)

`generateKey(platform, query, options)` builds
`JSON.stringify({platform, query: query.toLowerCase().trim(), options})`
and returns its SHA-256 digest in hex.  `JSON.stringify` serializes
object properties in insertion order, which the embedding keeps: options
become an ordered association list.  SHA-256 is implemented in full
(FIPS 180-4, matching Node's `createHash('sha256')...digest('hex')`),
over the UTF-8 bytes of the payload. -/

/-- Right rotation of a 32-bit word. -/
def rotr32 (n x : Nat) : Nat := ((x >>> n) ||| (x <<< (32 - n))) % 4294967296

/-- SHA-256 message-schedule sigma-0. -/
def lsig0 (x : Nat) : Nat := (rotr32 7 x) ^^^ (rotr32 18 x) ^^^ (x >>> 3)

/-- SHA-256 message-schedule sigma-1. -/
def lsig1 (x : Nat) : Nat := (rotr32 17 x) ^^^ (rotr32 19 x) ^^^ (x >>> 10)

/-- SHA-256 compression Sigma-0. -/
def bsig0 (x : Nat) : Nat := (rotr32 2 x) ^^^ (rotr32 13 x) ^^^ (rotr32 22 x)

/-- SHA-256 compression Sigma-1. -/
def bsig1 (x : Nat) : Nat := (rotr32 6 x) ^^^ (rotr32 11 x) ^^^ (rotr32 25 x)

/-- SHA-256 choice function. -/
def chOf (e f g : Nat) : Nat := (e &&& f) ^^^ ((e ^^^ 4294967295) &&& g)

/-- SHA-256 majority function. -/
def majOf (a b c : Nat) : Nat := (a &&& b) ^^^ (a &&& c) ^^^ (b &&& c)

/-- The 64 SHA-256 round constants (in decimal). -/
def sha256K : List Nat :=
  [1116352408, 1899447441, 3049323471, 3921009573, 961987163,
   1508970993, 2453635748, 2870763221, 3624381080, 310598401,
   607225278, 1426881987, 1925078388, 2162078206, 2614888103,
   3248222580, 3835390401, 4022224774, 264347078, 604807628,
   770255983, 1249150122, 1555081692, 1996064986, 2554220882,
   2821834349, 2952996808, 3210313671, 3336571891, 3584528711,
   113926993, 338241895, 666307205, 773529912, 1294757372,
   1396182291, 1695183700, 1986661051, 2177026350, 2456956037,
   2730485921, 2820302411, 3259730800, 3345764771, 3516065817,
   3600352804, 4094571909, 275423344, 430227734, 506948616,
   659060556, 883997877, 958139571, 1322822218, 1537002063,
   1747873779, 1955562222, 2024104815, 2227730452, 2361852424,
   2428436474, 2756734187, 3204031479, 3329325298]

/-- The SHA-256 initial hash state (in decimal). -/
def sha256H0 : List Nat :=
  [1779033703, 3144134277, 1013904242, 2773480762, 1359893119,
   2600822924, 528734635, 1541459225]

/-- Big-endian byte representation of `v` in `n` bytes. -/
def beBytes : Nat → Nat → List Nat
  | 0, _ => []
  | n + 1, v => beBytes n (v / 256) ++ [v % 256]

/-- SHA-256 padding: append `0x80`, zeros to 56 mod 64, then the
64-bit big-endian bit length. -/
def padMessage (msg : List Nat) : List Nat :=
  msg ++ 128 :: List.replicate ((119 - msg.length % 64) % 64) 0
    ++ beBytes 8 (8 * msg.length)

/-- Group bytes into big-endian 32-bit words. -/
def bytesToWords : List Nat → List Nat
  | b0 :: b1 :: b2 :: b3 :: rest =>
    (((b0 * 256 + b1) * 256 + b2) * 256 + b3) :: bytesToWords rest
  | _ => []

/-- Extend 16 schedule words to 64. -/
def extendW (w0 : List Nat) : List Nat :=
  (List.range 48).foldl
    (fun w i =>
      w ++ [(lsig1 (w.getD (i + 14) 0) + w.getD (i + 9) 0 +
             lsig0 (w.getD (i + 1) 0) + w.getD i 0) % 4294967296])
    w0

/-- One SHA-256 compression round on the 8-word working state. -/
def compressRound (s : List Nat) (kw : Nat × Nat) : List Nat :=
  match s with
  | [a, b, c, d, e, f, g, h] =>
    let t1 := (h + bsig1 e + chOf e f g + kw.1 + kw.2) % 4294967296
    let t2 := (bsig0 a + majOf a b c) % 4294967296
    [(t1 + t2) % 4294967296, a, b, c, (d + t1) % 4294967296, e, f, g]
  | other => other

/-- Process one 64-byte block into the running hash state. -/
def processBlock (hs block : List Nat) : List Nat :=
  let w := extendW (bytesToWords block)
  let s := (sha256K.zip w).foldl compressRound hs
  (hs.zip s).map (fun p => (p.1 + p.2) % 4294967296)

/-- Split into 64-byte chunks (`fuel` bounds the recursion). -/
def chunks64Go : Nat → List Nat → List (List Nat)
  | 0, _ => []
  | _ + 1, [] => []
  | fuel + 1, l => l.take 64 :: chunks64Go fuel (l.drop 64)

/-- SHA-256 of a byte list, as eight 32-bit words. -/
def sha256Words (msg : List Nat) : List Nat :=
  (chunks64Go (padMessage msg).length (padMessage msg)).foldl
    processBlock sha256H0

/-- Lower-case hex digit for a nibble. -/
def hexDigit (n : Nat) : Char :=
  if n < 10 then Char.ofNat (48 + n) else Char.ofNat (87 + n)

/-- A 32-bit word as 8 hex characters. -/
def word2hex (v : Nat) : String :=
  String.mk ((List.range 8).map (fun i => hexDigit ((v >>> (28 - 4 * i)) % 16)))

/-- SHA-256 hex digest of a byte list, as produced by
`createHash('sha256').update(data).digest('hex')`. -/
def sha256hex (msg : List Nat) : String :=
  String.join ((sha256Words msg).map word2hex)

/-- UTF-8 encoding of one character. -/
def charUtf8 (c : Char) : List Nat :=
  let n := c.toNat
  if n < 128 then [n]
  else if n < 2048 then [192 ||| (n >>> 6), 128 ||| (n &&& 63)]
  else if n < 65536 then
    [224 ||| (n >>> 12), 128 ||| ((n >>> 6) &&& 63), 128 ||| (n &&& 63)]
  else
    [240 ||| (n >>> 18), 128 ||| ((n >>> 12) &&& 63),
     128 ||| ((n >>> 6) &&& 63), 128 ||| (n &&& 63)]

/-- UTF-8 bytes of a string. -/
def utf8Bytes (s : String) : List Nat :=
  s.data.foldr (fun c acc => charUtf8 c ++ acc) []

/-- Embeds `query.toLowerCase()` on one character (the ASCII range; the
queries in the claims are ASCII). -/
def jsLowerChar (c : Char) : Char :=
  if 'A' ≤ c ∧ c ≤ 'Z' then Char.ofNat (c.toNat + 32) else c

/-- Embeds `String.prototype.toLowerCase`. -/
def jsToLowerCase (s : String) : String := String.mk (s.data.map jsLowerChar)

/-- Whitespace stripped by `String.prototype.trim` (the ASCII range plus
NBSP). -/
def jsIsWhitespace (c : Char) : Bool :=
  c == ' ' || c == '\t' || c == '\n' || c == '\r' ||
    c.toNat == 11 || c.toNat == 12 || c.toNat == 160

/-- Embeds `String.prototype.trim`: strip whitespace from both ends. -/
def jsTrim (s : String) : String :=
  String.mk (((s.data.dropWhile jsIsWhitespace).reverse.dropWhile
    jsIsWhitespace).reverse)

/-- Embeds the query normalization in `generateKey`:
`query.toLowerCase().trim()`. -/
def normalizeQuery (q : String) : String := jsTrim (jsToLowerCase q)

/-- JSON escaping of one character, as `JSON.stringify` performs it. -/
def escapeChar (c : Char) : List Char :=
  if c = '"' then ['\\', '"']
  else if c = '\\' then ['\\', '\\']
  else if c.toNat = 8 then ['\\', 'b']
  else if c.toNat = 9 then ['\\', 't']
  else if c.toNat = 10 then ['\\', 'n']
  else if c.toNat = 12 then ['\\', 'f']
  else if c.toNat = 13 then ['\\', 'r']
  else if c.toNat < 32 then
    ['\\', 'u', '0', '0', hexDigit (c.toNat / 16), hexDigit (c.toNat % 16)]
  else [c]

/-- JSON-escape a whole string. -/
def jsonEscape (s : String) : String :=
  String.mk (s.data.foldr (fun c acc => escapeChar c ++ acc) [])

/-- A JSON string literal: escaped content between double quotes. -/
def jsonStr (s : String) : String := "\"" ++ jsonEscape s ++ "\""

/-- A JSON-serializable option value (string, number or boolean). -/
inductive JVal where
  | s (v : String)
  | n (v : Int)
  | b (v : Bool)
deriving DecidableEq

/-- Serialize one option value as `JSON.stringify` would. -/
def JVal.serialize : JVal → String
  | .s v => jsonStr v
  | .n v => toString v
  | .b v => if v then "true" else "false"

/-- Serialize object fields in the order given — `JSON.stringify`
serializes properties in insertion order and applies no canonical
reordering. -/
def serializeFields : List (String × JVal) → String
  | [] => ""
  | [(k, v)] => jsonStr k ++ ":" ++ v.serialize
  | (k, v) :: rest => jsonStr k ++ ":" ++ v.serialize ++ "," ++ serializeFields rest

/-- A JSON object literal from ordered fields. -/
def jsonObj (fields : List (String × JVal)) : String :=
  "\x7b" ++ serializeFields fields ++ "\x7d"

/-- Embeds the payload `JSON.stringify({platform, query:
query.toLowerCase().trim(), options: options || \x7b\x7d})` hashed by
`RequestCache.generateKey`. -/
def generateKeyData (platform query : String)
    (options : List (String × JVal)) : String :=
  "\x7b" ++ jsonStr "platform" ++ ":" ++ jsonStr platform ++ ","
    ++ jsonStr "query" ++ ":" ++ jsonStr (normalizeQuery query) ++ ","
    ++ jsonStr "options" ++ ":" ++ jsonObj options ++ "\x7d"

/-- Embeds `RequestCache.generateKey`: the SHA-256 hex digest of the
serialized payload. -/
def generateKey (platform query : String)
    (options : List (String × JVal)) : String :=
  sha256hex (utf8Bytes (generateKeyData platform query options))

/-- C8: `generateKey` is deterministic — any two queries with the same
lower-cased and trimmed form give the same key (so in particular the
same inputs always give the same key), and `generateKey(p, "Query", o)`
equals `generateKey(p, " query ", o)` for every platform and options. -/
theorem c8_generateKey_query_insensitive (p q q' : String)
    (o : List (String × JVal))
    (h : normalizeQuery q = normalizeQuery q') :
    generateKey p q o = generateKey p q' o
    ∧ generateKey p "Query" o = generateKey p " query " o := by
  constructor
  · unfold generateKey generateKeyData
    rw [h]
  · unfold generateKey generateKeyData
    rw [show normalizeQuery "Query" = normalizeQuery " query " from by decide]

/-- C8 witness: at platform "p" and empty options, "Query" and
" query " normalize identically and produce the same key. -/
theorem c8_generateKey_query_insensitive_witness :
    generateKey "p" "Query" [] = generateKey "p" " query " [] :=
  (c8_generateKey_query_insensitive "p" "Query" " query " [] (by decide)).1

/-- C6 counterexample: the options `\x7ba: 1, b: 2\x7d` and
`\x7bb: 2, a: 1\x7d` hold the same fields with the same values, yet
`generateKey` gives them different keys: `JSON.stringify` keeps
insertion order and no canonicalization happens before hashing. -/
theorem c6_generateKey_field_order_counterexample :
    generateKey "p" "q" [("a", .n 1), ("b", .n 2)] ≠
      generateKey "p" "q" [("b", .n 2), ("a", .n 1)] := by
  decide

/-- C6 (amended): `generateKey` serializes the options object in
property insertion order — no canonical field reordering happens before
hashing — so the key is stable only for identical insertion order:
fields are emitted in list order, and the payloads (hence, as
witnessed, the keys) of `\x7ba: 1, b: 2\x7d` and `\x7bb: 2, a: 1\x7d`
differ. -/
theorem c6_generateKey_insertion_order
    (k : String) (v : JVal) (rest : List (String × JVal))
    (hrest : rest ≠ []) :
    serializeFields ((k, v) :: rest) =
      jsonStr k ++ ":" ++ v.serialize ++ "," ++ serializeFields rest
    ∧ generateKeyData "p" "q" [("a", .n 1), ("b", .n 2)] ≠
        generateKeyData "p" "q" [("b", .n 2), ("a", .n 1)] := by
  constructor
  · match rest, hrest with
    | (k2, v2) :: rest2, _ => rfl
  · decide

/-- C6 (amended) witness: the head field of a two-field options object
is serialized first. -/
theorem c6_generateKey_insertion_order_witness :
    serializeFields [("a", JVal.n 1), ("b", JVal.n 2)] =
      jsonStr "a" ++ ":" ++ (JVal.n 1).serialize ++ ","
        ++ serializeFields [("b", JVal.n 2)] :=
  (c6_generateKey_insertion_order "a" (.n 1) [("b", .n 2)] (by decide)).1

/-! ## The LRU+TTL response cache (src/utils/RequestCache.ts / C4)

`RequestCache` stores entries in an `lru-cache` instance created with
`max = options.maxSize || 100`, `ttl = options.ttlMs || 3600000` and
`updateAgeOnGet: true`.  The `lru-cache` library itself is a dependency,
not a repository file, so its eviction/expiry behaviour is modelled from
the spec: entries are kept in recency order (head = least recently
accessed, last = most recently accessed); `get` on a fresh entry
refreshes its age and recency; an entry is visible iff
`now − insertedAt < ttl`, an expired entry is treated as absent (and
purged); `set` beyond `max` evicts the least recently used entry.
`get`'s hit/miss accounting is embedded from `RequestCache.get`. -/

/-- One cached entry: its key, value, and the time its TTL countdown
started (insertion time, refreshed on `get` by `updateAgeOnGet`). -/
structure CacheEntry (V : Type) where
  key : String
  value : V
  start : Nat
deriving DecidableEq

/-- Cache state: entries in recency order (head = least recently
accessed) plus the hit/miss counters of `RequestCache`. -/
structure CacheState (V : Type) where
  entries : List (CacheEntry V)
  hits : Nat
  misses : Nat
deriving DecidableEq

/-- Embeds `options.maxSize || 100` from the constructor. -/
def effMaxSize (maxSize : Nat) : Nat := if maxSize = 0 then 100 else maxSize

/-- Embeds `options.ttlMs || 3600000` from the constructor. -/
def effTtl (ttl : Nat) : Nat := if ttl = 0 then 3600000 else ttl

/-- Drop all entries stored under `k`. -/
def removeKey (k : String) (l : List (CacheEntry V)) : List (CacheEntry V) :=
  l.filter (fun e => e.key != k)

/-- Modelled from the spec: `RequestCache.get` over the `lru-cache`
behaviour — a fresh entry is a hit and is refreshed (recency and TTL
age, per `updateAgeOnGet: true`); an expired entry is treated as absent,
purged, and counted as a miss; a missing key is a miss. -/
def cacheGet (ttl now : Nat) (k : String) (s : CacheState V) :
    Option V × CacheState V :=
  match s.entries.find? (fun e => e.key == k) with
  | none => (none, { s with misses := s.misses + 1 })
  | some e =>
    if now - e.start < ttl then
      (some e.value,
        { entries := removeKey k s.entries ++ [{ e with start := now }],
          hits := s.hits + 1, misses := s.misses })
    else
      (none, { entries := removeKey k s.entries,
               hits := s.hits, misses := s.misses + 1 })

/-- Modelled from the spec: `RequestCache.set` over the `lru-cache`
behaviour — insert or refresh the entry as most recently used, then
evict the least recently used entry if the size bound is exceeded. -/
def cacheSet (maxSize now : Nat) (k : String) (v : V) (s : CacheState V) :
    CacheState V :=
  let entries1 := removeKey k s.entries ++ [⟨k, v, now⟩]
  { s with entries := if maxSize < entries1.length then entries1.tail else entries1 }

/-- One cache call with its timestamp. -/
inductive CacheOp (V : Type) where
  | get (k : String) (now : Nat)
  | set (k : String) (v : V) (now : Nat)

/-- Timestamp of a cache call. -/
def CacheOp.time : CacheOp V → Nat
  | .get _ n => n
  | .set _ _ n => n

/-- State transition of one cache call. -/
def applyCacheOp (maxSize ttl : Nat) (s : CacheState V) : CacheOp V → CacheState V
  | .get k now => (cacheGet ttl now k s).2
  | .set k v now => cacheSet maxSize now k v s

/-- Fold a sequence of cache calls over a state. -/
def runCacheOps (maxSize ttl : Nat) (s : CacheState V)
    (ops : List (CacheOp V)) : CacheState V :=
  ops.foldl (applyCacheOp maxSize ttl) s

/-- The fresh cache. -/
def initCache : CacheState V := ⟨[], 0, 0⟩

/-- Timestamps along a call sequence are non-decreasing, starting no
earlier than `t`. -/
def monoFrom (t : Nat) : List (CacheOp V) → Prop
  | [] => True
  | op :: rest => t ≤ op.time ∧ monoFrom op.time rest

/-- Cache well-formedness at time `t`: entries are in weakly increasing
last-access order and no access is in the future. -/
def timely (maxSize t : Nat) (s : CacheState V) : Prop :=
  s.entries.length ≤ maxSize
  ∧ s.entries.Pairwise (fun a b => a.start ≤ b.start)
  ∧ ∀ e ∈ s.entries, e.start ≤ t

theorem removeKey_sublist (k : String) (l : List (CacheEntry V)) :
    (removeKey k l).Sublist l :=
  List.filter_sublist l

theorem removeKey_length_lt (k : String) (l : List (CacheEntry V))
    (e : CacheEntry V) (he : l.find? (fun e' => e'.key == k) = some e) :
    (removeKey k l).length < l.length := by
  induction l with
  | nil => simp [List.find?] at he
  | cons hd tl ih =>
    by_cases h : (hd.key == k) = true
    · have : (removeKey k (hd :: tl)).length = (removeKey k tl).length := by
        simp [removeKey, List.filter, bne, h]
      rw [this]
      have := (removeKey_sublist k tl).length_le
      simp only [List.length_cons]
      omega
    · rw [show ((hd :: tl).find? fun e' => e'.key == k) =
          tl.find? (fun e' => e'.key == k) from List.find?_cons_of_neg _ h] at he
      have hlt := ih he
      have : (removeKey k (hd :: tl)).length = (removeKey k tl).length + 1 := by
        simp [removeKey, List.filter, bne, h]
      simp only [List.length_cons, this]
      omega

theorem timely_apply (maxSize ttl : Nat) (s : CacheState V) (op : CacheOp V)
    (t : Nat) (hs : timely maxSize t s) (ht : t ≤ op.time) :
    timely maxSize (op.time) (applyCacheOp maxSize ttl s op) := by
  obtain ⟨hlen, hpw, hle⟩ := hs
  cases op with
  | get k now =>
    simp only [applyCacheOp, CacheOp.time] at *
    cases hf : s.entries.find? (fun e => e.key == k) with
    | none =>
      simp only [cacheGet, hf]
      exact ⟨hlen, hpw, fun e he => (hle e he).trans ht⟩
    | some e =>
      simp only [cacheGet, hf]
      split
      · simp only []
        refine ⟨?_, ?_, ?_⟩
        · simp only [List.length_append, List.length_cons, List.length_nil]
          have := removeKey_length_lt k s.entries e hf
          omega
        · rw [List.pairwise_append]
          refine ⟨hpw.sublist (removeKey_sublist k s.entries), by simp, ?_⟩
          intro a ha b hb
          simp only [List.mem_singleton] at hb
          subst hb
          exact ((hle a ((removeKey_sublist k s.entries).mem ha)).trans ht)
        · intro e' he'
          rcases List.mem_append.mp he' with h | h
          · exact (hle e' ((removeKey_sublist k s.entries).mem h)).trans ht
          · simp only [List.mem_singleton] at h
            subst h
            exact le_refl _
      · simp only []
        refine ⟨?_, ?_, ?_⟩
        · have := (removeKey_sublist k s.entries).length_le
          exact this.trans hlen
        · exact hpw.sublist (removeKey_sublist k s.entries)
        · intro e' he'
          exact (hle e' ((removeKey_sublist k s.entries).mem he')).trans ht
  | set k v now =>
    simp only [applyCacheOp, CacheOp.time] at *
    unfold cacheSet
    simp only []
    have hsub := removeKey_sublist k s.entries
    have hlen1 : (removeKey k s.entries ++ [(⟨k, v, now⟩ : CacheEntry V)]).length ≤
        s.entries.length + 1 := by
      simp only [List.length_append, List.length_cons, List.length_nil]
      have := hsub.length_le
      omega
    have hpw1 : (removeKey k s.entries ++ [(⟨k, v, now⟩ : CacheEntry V)]).Pairwise
        (fun a b => a.start ≤ b.start) := by
      rw [List.pairwise_append]
      refine ⟨hpw.sublist hsub, by simp, ?_⟩
      intro a ha b hb
      simp only [List.mem_singleton] at hb
      subst hb
      exact (hle a (hsub.mem ha)).trans ht
    have hle1 : ∀ e ∈ removeKey k s.entries ++ [(⟨k, v, now⟩ : CacheEntry V)],
        e.start ≤ now := by
      intro e' he'
      rcases List.mem_append.mp he' with h | h
      · exact (hle e' (hsub.mem h)).trans ht
      · simp only [List.mem_singleton] at h
        subst h
        exact le_refl _
    split
    · rename_i hbig
      refine ⟨?_, ?_, ?_⟩
      · have h1 : (removeKey k s.entries ++
            [(⟨k, v, now⟩ : CacheEntry V)]).tail.length ≤ maxSize := by
          rw [List.length_tail]
          omega
        exact h1
      · exact hpw1.sublist (List.tail_sublist _)
      · intro e' he'
        exact hle1 e' ((List.tail_sublist _).mem he')
    · rename_i hsmall
      have h1 : (removeKey k s.entries ++
          [(⟨k, v, now⟩ : CacheEntry V)]).length ≤ maxSize := by omega
      exact ⟨h1, hpw1, hle1⟩

theorem timely_run (maxSize ttl : Nat) (ops : List (CacheOp V))
    (s : CacheState V) (t : Nat) (hs : timely maxSize t s)
    (hm : monoFrom t ops) :
    ∃ t', timely maxSize t' (runCacheOps maxSize ttl s ops) := by
  induction ops generalizing s t with
  | nil => exact ⟨t, hs⟩
  | cons op rest ih =>
    obtain ⟨h1, h2⟩ := hm
    exact ih (applyCacheOp maxSize ttl s op) op.time
      (timely_apply maxSize ttl s op t hs h1) h2

/-- C4: with the constructor's effective bound `maxSize || 100 ≥ 1` and
for every time-monotone call sequence from the fresh cache, the number
of entries never exceeds the bound and the entries stay in
least-recently-accessed-first order; a `set` of a new key on a full
cache evicts exactly the head — the least-recently-accessed entry, whose
last access is minimal; and a `get` on an entry older than its TTL
returns absent and counts a miss, not a hit. -/
theorem c4_cache_lru_eviction_ttl (V : Type) (maxSize ttl : Nat)
    (ops : List (CacheOp V)) (hmono : monoFrom 0 ops) :
    (1 ≤ effMaxSize maxSize)
    ∧ (runCacheOps (effMaxSize maxSize) ttl initCache ops).entries.length ≤
        effMaxSize maxSize
    ∧ (runCacheOps (effMaxSize maxSize) ttl initCache ops).entries.Pairwise
        (fun a b => a.start ≤ b.start)
    ∧ (∀ (s : CacheState V) k v now,
        s.entries.length = effMaxSize maxSize →
        (∀ e ∈ s.entries, e.key ≠ k) →
        (cacheSet (effMaxSize maxSize) now k v s).entries =
          s.entries.tail ++ [⟨k, v, now⟩])
    ∧ (∀ (s : CacheState V) hd,
        s.entries.Pairwise (fun a b => a.start ≤ b.start) →
        s.entries.head? = some hd → ∀ e ∈ s.entries, hd.start ≤ e.start)
    ∧ (∀ (s : CacheState V) (e : CacheEntry V) k now,
        s.entries.find? (fun e' => e'.key == k) = some e →
        ttl ≤ now - e.start →
        (cacheGet ttl now k s).1 = none
        ∧ (cacheGet ttl now k s).2.misses = s.misses + 1
        ∧ (cacheGet ttl now k s).2.hits = s.hits) := by
  have hM : 1 ≤ effMaxSize maxSize := by
    unfold effMaxSize
    split <;> omega
  have hinit : timely (V := V) (effMaxSize maxSize) 0 initCache := by
    refine ⟨by simp [initCache], by simp [initCache], by simp [initCache]⟩
  obtain ⟨t', hlen, hpw, _⟩ :=
    timely_run (effMaxSize maxSize) ttl ops initCache 0 hinit hmono
  refine ⟨hM, hlen, hpw, ?_, ?_, ?_⟩
  · intro s k v now hfull hnew
    have hrk : removeKey k s.entries = s.entries := by
      unfold removeKey
      refine List.filter_eq_self.mpr ?_
      intro e he
      simpa [bne] using hnew e he
    have key : (cacheSet (effMaxSize maxSize) now k v s).entries =
        if effMaxSize maxSize <
            (removeKey k s.entries ++ [(⟨k, v, now⟩ : CacheEntry V)]).length
        then (removeKey k s.entries ++ [(⟨k, v, now⟩ : CacheEntry V)]).tail
        else removeKey k s.entries ++ [(⟨k, v, now⟩ : CacheEntry V)] := rfl
    rw [key, hrk]
    rw [if_pos (by simp [hfull])]
    cases hs : s.entries with
    | nil =>
      rw [hs] at hfull
      simp at hfull
      omega
    | cons a l => simp
  · intro s hd hpw2 hhd e he
    cases hs : s.entries with
    | nil =>
      rw [hs] at he
      simp at he
    | cons a l =>
      rw [hs] at hhd he hpw2
      simp only [List.head?] at hhd
      cases hhd
      rcases List.mem_cons.mp he with h | h
      · subst h
        exact le_refl _
      · exact (List.pairwise_cons.mp hpw2).1 e h
  · intro s e k now hf hexp
    simp only [cacheGet, hf]
    rw [if_neg (by omega)]
    exact ⟨rfl, rfl, rfl⟩

/-- C4 witness: with a bound of 3, a TTL of 10 and four timestamped
inserts followed by one get, the run from the fresh cache keeps at most
3 entries. -/
theorem c4_cache_lru_eviction_ttl_witness :
    (runCacheOps (effMaxSize 3) 10 initCache
        [CacheOp.set "a" 1 1, CacheOp.set "b" 2 2, CacheOp.set "c" 3 3,
         CacheOp.set "d" 4 4, CacheOp.get "a" 5]).entries.length ≤
      effMaxSize 3 :=
  (c4_cache_lru_eviction_ttl Nat 3 10
    [CacheOp.set "a" 1 1, CacheOp.set "b" 2 2, CacheOp.set "c" 3 3,
     CacheOp.set "d" 4 4, CacheOp.get "a" 5]
    (by simp [monoFrom, CacheOp.time])).2.1

/-! ## Token-bucket rate limiter (spec §4.1 / C3)

`src/utils/RateLimiter.ts` is not among the repository files available
here (only its integration tests are), so the limiter is modelled from
the spec: tokens refill lazily as
`min(capacity, tokens + elapsed × rate)`; an `acquire()` joins the FIFO
waiter queue and grants are handed out from the head of the queue while
at least one token is available, deducting one token per grant; a
scheduled wake-up performs the same drain.  Callers are identified by
their arrival index, and the `grants` log records who has been granted,
in grant order. -/

/-- Limiter state: fractional token count, FIFO queue of waiting arrival
indices, the next arrival index, and the log of granted indices. -/
structure BucketState where
  tokens : ℚ
  queue : List Nat
  nextId : Nat
  grants : List Nat
deriving DecidableEq

/-- Modelled from the spec: lazy refill
`availableTokens = min(capacity, availableTokens + elapsed × rate)`. -/
def refill (capacity rate elapsed t : ℚ) : ℚ := min capacity (t + elapsed * rate)

/-- Modelled from the spec: grant tokens to the head of the queue while
a full token is available, one token per grant, in FIFO order (`fuel`
bounds the recursion by the queue length). -/
def drainGo : Nat → ℚ → List Nat → List Nat → ℚ × List Nat × List Nat
  | 0, t, q, g => (t, q, g)
  | fuel + 1, t, q, g =>
    match q with
    | [] => (t, [], g)
    | i :: rest =>
      if 1 ≤ t then drainGo fuel (t - 1) rest (g ++ [i]) else (t, i :: rest, g)

/-- One limiter event: a new `acquire()`/`waitForPermission()` call or a
scheduled wake-up, each `elapsed` time after the previous event. -/
inductive BucketOp where
  | acquire (elapsed : ℚ)
  | wake (elapsed : ℚ)
deriving DecidableEq

/-- Time since the previous event. -/
def BucketOp.elapsed : BucketOp → ℚ
  | .acquire e => e
  | .wake e => e

/-- Modelled from the spec: state transition of one limiter event —
refill, enqueue the caller on `acquire`, then drain the queue FIFO. -/
def applyBucketOp (capacity rate : ℚ) (s : BucketState) : BucketOp → BucketState
  | .acquire e =>
    let t := refill capacity rate e s.tokens
    let r := drainGo (s.queue.length + 1) t (s.queue ++ [s.nextId]) s.grants
    ⟨r.1, r.2.1, s.nextId + 1, r.2.2⟩
  | .wake e =>
    let t := refill capacity rate e s.tokens
    let r := drainGo s.queue.length t s.queue s.grants
    ⟨r.1, r.2.1, s.nextId, r.2.2⟩

/-- Fold a sequence of limiter events over a state. -/
def runBucketOps (capacity rate : ℚ) (s : BucketState) (ops : List BucketOp) :
    BucketState :=
  ops.foldl (applyBucketOp capacity rate) s

/-- The freshly constructed limiter: a full bucket, no waiters. -/
def initBucket (capacity : ℚ) : BucketState := ⟨capacity, [], 0, []⟩

/-- Limiter invariant: tokens within `[0, capacity]`, all logged grants
and queued waiters in strictly increasing arrival order with the grant
log entirely before the queue, and all indices below `nextId`. -/
def bucketInv (capacity : ℚ) (s : BucketState) : Prop :=
  (0 ≤ s.tokens ∧ s.tokens ≤ capacity)
  ∧ (s.grants ++ s.queue).Pairwise (· < ·)
  ∧ ∀ i ∈ s.grants ++ s.queue, i < s.nextId

theorem drainGo_tokens_le (fuel : Nat) (t : ℚ) (q g : List Nat) :
    (drainGo fuel t q g).1 ≤ t := by
  induction fuel generalizing t q g with
  | zero => exact le_refl _
  | succ fuel ih =>
    cases q with
    | nil => exact le_refl _
    | cons i rest =>
      simp only [drainGo]
      split
      · exact (ih (t - 1) rest (g ++ [i])).trans (by linarith)
      · exact le_refl _

theorem drainGo_tokens_nonneg (fuel : Nat) (t : ℚ) (q g : List Nat)
    (ht : 0 ≤ t) : 0 ≤ (drainGo fuel t q g).1 := by
  induction fuel generalizing t q g with
  | zero => exact ht
  | succ fuel ih =>
    cases q with
    | nil => exact ht
    | cons i rest =>
      simp only [drainGo]
      split
      · rename_i h1
        exact ih (t - 1) rest (g ++ [i]) (by linarith)
      · exact ht

theorem drainGo_sum (fuel : Nat) (t : ℚ) (q g : List Nat) :
    (drainGo fuel t q g).1 + ((drainGo fuel t q g).2.2.length : ℚ) =
      t + (g.length : ℚ) := by
  induction fuel generalizing t q g with
  | zero => rfl
  | succ fuel ih =>
    cases q with
    | nil => rfl
    | cons i rest =>
      simp only [drainGo]
      split
      · have h := ih (t - 1) rest (g ++ [i])
        rw [h]
        simp only [List.length_append, List.length_singleton]
        push_cast
        ring
      · rfl

theorem drainGo_join (fuel : Nat) (t : ℚ) (q g : List Nat) :
    (drainGo fuel t q g).2.2 ++ (drainGo fuel t q g).2.1 = g ++ q := by
  induction fuel generalizing t q g with
  | zero => rfl
  | succ fuel ih =>
    cases q with
    | nil => simp [drainGo]
    | cons i rest =>
      simp only [drainGo]
      split
      · rw [ih (t - 1) rest (g ++ [i])]
        simp
      · rfl

theorem refill_bounds (capacity rate e t : ℚ) (hc : 0 ≤ capacity)
    (hr : 0 ≤ rate) (he : 0 ≤ e) (ht : 0 ≤ t) :
    0 ≤ refill capacity rate e t ∧ refill capacity rate e t ≤ capacity :=
  ⟨le_min hc (by nlinarith), min_le_left _ _⟩

theorem bucketInv_step (capacity rate : ℚ) (hc : 0 ≤ capacity)
    (hr : 0 ≤ rate) (s : BucketState) (op : BucketOp)
    (he : 0 ≤ op.elapsed) (hs : bucketInv capacity s) :
    bucketInv capacity (applyBucketOp capacity rate s op) := by
  obtain ⟨⟨ht0, htc⟩, hpw, hbnd⟩ := hs
  cases op with
  | acquire e =>
    simp only [BucketOp.elapsed] at he
    obtain ⟨hr0, hrc⟩ := refill_bounds capacity rate e s.tokens hc hr he ht0
    refine ⟨⟨?_, ?_⟩, ?_, ?_⟩
    · exact drainGo_tokens_nonneg _ _ _ _ hr0
    · exact (drainGo_tokens_le _ _ _ _).trans hrc
    · show ((drainGo _ _ _ _).2.2 ++ (drainGo _ _ _ _).2.1).Pairwise (· < ·)
      rw [drainGo_join]
      rw [show s.grants ++ (s.queue ++ [s.nextId]) =
          (s.grants ++ s.queue) ++ [s.nextId] from (List.append_assoc _ _ _).symm]
      rw [List.pairwise_append]
      exact ⟨hpw, by simp, fun a ha b hb => by
        simp only [List.mem_singleton] at hb
        subst hb
        exact hbnd a ha⟩
    · show ∀ i ∈ (drainGo _ _ _ _).2.2 ++ (drainGo _ _ _ _).2.1, i < s.nextId + 1
      rw [drainGo_join]
      intro i hi
      rcases List.mem_append.mp hi with h | h
      · exact (hbnd i (List.mem_append.mpr (Or.inl h))).trans (Nat.lt_succ_self _)
      · rcases List.mem_append.mp h with h2 | h2
        · exact (hbnd i (List.mem_append.mpr (Or.inr h2))).trans (Nat.lt_succ_self _)
        · simp only [List.mem_singleton] at h2
          subst h2
          exact Nat.lt_succ_self _
  | wake e =>
    simp only [BucketOp.elapsed] at he
    obtain ⟨hr0, hrc⟩ := refill_bounds capacity rate e s.tokens hc hr he ht0
    refine ⟨⟨?_, ?_⟩, ?_, ?_⟩
    · exact drainGo_tokens_nonneg _ _ _ _ hr0
    · exact (drainGo_tokens_le _ _ _ _).trans hrc
    · show ((drainGo _ _ _ _).2.2 ++ (drainGo _ _ _ _).2.1).Pairwise (· < ·)
      rw [drainGo_join]
      exact hpw
    · show ∀ i ∈ (drainGo _ _ _ _).2.2 ++ (drainGo _ _ _ _).2.1, i < s.nextId
      rw [drainGo_join]
      exact hbnd

theorem bucketInv_run (capacity rate : ℚ) (hc : 0 ≤ capacity) (hr : 0 ≤ rate)
    (s : BucketState) (ops : List BucketOp)
    (he : ∀ op ∈ ops, 0 ≤ op.elapsed) (hs : bucketInv capacity s) :
    bucketInv capacity (runBucketOps capacity rate s ops) := by
  induction ops generalizing s with
  | nil => exact hs
  | cons op rest ih =>
    exact ih (applyBucketOp capacity rate s op)
      (fun o ho => he o (List.mem_cons_of_mem op ho))
      (bucketInv_step capacity rate hc hr s op
        (he op (List.mem_cons_self op rest)) hs)

theorem bucket_conserve_step (capacity rate : ℚ) (s : BucketState)
    (op : BucketOp) (hz : op.elapsed = 0) (htc : s.tokens ≤ capacity) :
    (applyBucketOp capacity rate s op).tokens +
        (((applyBucketOp capacity rate s op).grants).length : ℚ) =
      s.tokens + (s.grants.length : ℚ) := by
  have hre : ∀ t : ℚ, t ≤ capacity → refill capacity rate 0 t = t := by
    intro t ht
    unfold refill
    rw [zero_mul, add_zero]
    exact min_eq_right ht
  cases op with
  | acquire e =>
    simp only [BucketOp.elapsed] at hz
    subst hz
    show (drainGo _ _ _ _).1 + (((drainGo _ _ _ _).2.2).length : ℚ) = _
    rw [drainGo_sum, hre s.tokens htc]
  | wake e =>
    simp only [BucketOp.elapsed] at hz
    subst hz
    show (drainGo _ _ _ _).1 + (((drainGo _ _ _ _).2.2).length : ℚ) = _
    rw [drainGo_sum, hre s.tokens htc]

theorem bucket_conserve_run (capacity rate : ℚ) (hc : 0 ≤ capacity)
    (hr : 0 ≤ rate) (s : BucketState) (ops : List BucketOp)
    (hz : ∀ op ∈ ops, op.elapsed = 0) (hs : bucketInv capacity s) :
    (runBucketOps capacity rate s ops).tokens +
        (((runBucketOps capacity rate s ops).grants).length : ℚ) =
      s.tokens + (s.grants.length : ℚ) := by
  induction ops generalizing s with
  | nil => rfl
  | cons op rest ih =>
    have hz0 : op.elapsed = 0 := hz op (List.mem_cons_self op rest)
    have he0 : 0 ≤ op.elapsed := le_of_eq hz0.symm
    have hstep := bucket_conserve_step capacity rate s op hz0 hs.1.2
    have hinv' := bucketInv_step capacity rate hc hr s op he0 hs
    have := ih (applyBucketOp capacity rate s op)
      (fun o ho => hz o (List.mem_cons_of_mem op ho)) hinv'
    calc (runBucketOps capacity rate (applyBucketOp capacity rate s op) rest).tokens +
          (((runBucketOps capacity rate (applyBucketOp capacity rate s op)
              rest).grants).length : ℚ) =
        (applyBucketOp capacity rate s op).tokens +
          (((applyBucketOp capacity rate s op).grants).length : ℚ) := this
      _ = s.tokens + (s.grants.length : ℚ) := hstep

/-- C3: for every event sequence with non-negative inter-arrival times,
the limiter run from a full bucket keeps `0 ≤ availableTokens ≤
capacity` in every reachable state, and both granted and still-waiting
callers appear in strictly increasing arrival order with every waiter
behind every grant — so waiters are granted in strict FIFO order; and
for a burst issued faster than the refill rate (zero elapsed time, so
nothing refills), the number of granted calls never exceeds the
capacity. -/
theorem c3_token_bucket_invariants (capacity rate : ℚ) (hc : 0 ≤ capacity)
    (hr : 0 ≤ rate) (ops : List BucketOp)
    (he : ∀ op ∈ ops, 0 ≤ op.elapsed) :
    (0 ≤ (runBucketOps capacity rate (initBucket capacity) ops).tokens
      ∧ (runBucketOps capacity rate (initBucket capacity) ops).tokens ≤ capacity)
    ∧ ((runBucketOps capacity rate (initBucket capacity) ops).grants ++
        (runBucketOps capacity rate (initBucket capacity) ops).queue).Pairwise (· < ·)
    ∧ (runBucketOps capacity rate (initBucket capacity) ops).grants.Pairwise (· < ·)
    ∧ ((∀ op ∈ ops, op.elapsed = 0) →
        (((runBucketOps capacity rate (initBucket capacity) ops).grants.length : ℚ)
          ≤ capacity)) := by
  have hinit : bucketInv capacity (initBucket capacity) := by
    refine ⟨⟨hc, le_refl _⟩, ?_, ?_⟩ <;> simp [initBucket]
  have hrun := bucketInv_run capacity rate hc hr (initBucket capacity) ops he hinit
  obtain ⟨⟨h1, h2⟩, hpw, hbnd⟩ := hrun
  refine ⟨⟨h1, h2⟩, hpw, hpw.sublist (List.sublist_append_left _ _), ?_⟩
  intro hz
  have hcons := bucket_conserve_run capacity rate hc hr (initBucket capacity)
    ops hz hinit
  have : (initBucket capacity).tokens + (((initBucket capacity).grants).length : ℚ) =
      capacity := by
    simp [initBucket]
  rw [this] at hcons
  linarith

/-- C3 witness: capacity 2, rate 1, three simultaneous `acquire()`
calls — tokens stay within bounds and at most 2 calls are granted. -/
theorem c3_token_bucket_invariants_witness :
    (0 ≤ (runBucketOps 2 1 (initBucket 2)
        [BucketOp.acquire 0, BucketOp.acquire 0, BucketOp.acquire 0]).tokens
      ∧ (runBucketOps 2 1 (initBucket 2)
        [BucketOp.acquire 0, BucketOp.acquire 0, BucketOp.acquire 0]).tokens ≤ 2)
    ∧ (((runBucketOps 2 1 (initBucket 2)
        [BucketOp.acquire 0, BucketOp.acquire 0, BucketOp.acquire 0]).grants.length : ℚ)
        ≤ 2) :=
  ⟨(c3_token_bucket_invariants 2 1 (by norm_num) (by norm_num)
      [BucketOp.acquire 0, BucketOp.acquire 0, BucketOp.acquire 0]
      (by intro op hop; fin_cases hop <;> norm_num [BucketOp.elapsed])).1,
    (c3_token_bucket_invariants 2 1 (by norm_num) (by norm_num)
      [BucketOp.acquire 0, BucketOp.acquire 0, BucketOp.acquire 0]
      (by intro op hop; fin_cases hop <;> norm_num [BucketOp.elapsed])).2.2.2
      (by intro op hop; fin_cases hop <;> norm_num [BucketOp.elapsed])⟩

/-! ## Mirror registry (spec §4.5 / C7)

The Sci-Hub mirror registry implementation is not among the repository
files available here (only its tests are), so it is modelled from the
spec: each mirror holds a status (Unknown, Healthy or Unhealthy) and its
measured latency; `selectBest()` returns the Healthy mirror with the
lowest `lastResponseTimeMs`, falls back to some Unknown mirror when none
are confirmed Healthy, and fails only when every mirror is confirmed
Unhealthy; `reportFailure` increments `consecutiveFailures` and demotes
the mirror to Unhealthy once the threshold is crossed. -/

/-- Health state of one mirror. -/
inductive MirrorStatus where
  | unknown
  | healthy
  | unhealthy
deriving DecidableEq

/-- One mirror record: URL, probed status, measured latency, and the
count of consecutive failures. -/
structure MirrorRecord where
  url : String
  status : MirrorStatus
  lastResponseTimeMs : Nat
  consecutiveFailures : Nat
deriving DecidableEq

/-- Modelled from the spec: the record with the lowest
`lastResponseTimeMs` (first wins ties). -/
def minByTime : List MirrorRecord → Option MirrorRecord
  | [] => none
  | m :: rest =>
    match minByTime rest with
    | none => some m
    | some b => some (if b.lastResponseTimeMs < m.lastResponseTimeMs then b else m)

/-- Modelled from the spec: `selectBest()` — the fastest Healthy mirror,
else some Unknown mirror, else no mirror available (`none`). -/
def selectBest (mirrors : List MirrorRecord) : Option MirrorRecord :=
  match minByTime (mirrors.filter (fun m => m.status == .healthy)) with
  | some m => some m
  | none =>
    match mirrors.filter (fun m => m.status == .unknown) with
    | m :: _ => some m
    | [] => none

/-- Modelled from the spec: `reportFailure(url)` — increment the
mirror's `consecutiveFailures` and demote it to Unhealthy once the
threshold is reached. -/
def reportFailure (threshold : Nat) (mirrors : List MirrorRecord)
    (url : String) : List MirrorRecord :=
  mirrors.map fun m =>
    if m.url == url then
      { m with consecutiveFailures := m.consecutiveFailures + 1,
               status := if threshold ≤ m.consecutiveFailures + 1 then .unhealthy
                         else m.status }
    else m

/-- Modelled from the spec: `reportSuccess(url)` — reset the failure
count and promote to Healthy. -/
def reportSuccess (mirrors : List MirrorRecord) (url : String) :
    List MirrorRecord :=
  mirrors.map fun m =>
    if m.url == url then { m with consecutiveFailures := 0, status := .healthy }
    else m

theorem minByTime_mem (l : List MirrorRecord) (m : MirrorRecord)
    (h : minByTime l = some m) : m ∈ l := by
  induction l generalizing m with
  | nil => simp [minByTime] at h
  | cons a rest ih =>
    simp only [minByTime] at h
    cases hr : minByTime rest with
    | none =>
      rw [hr] at h
      simp only [Option.some.injEq] at h
      subst h
      exact List.mem_cons_self _ _
    | some b =>
      rw [hr] at h
      simp only [Option.some.injEq] at h
      subst h
      split
      · exact List.mem_cons_of_mem a (ih b hr)
      · exact List.mem_cons_self _ _

theorem minByTime_le (l : List MirrorRecord) (m : MirrorRecord)
    (h : minByTime l = some m) :
    ∀ m' ∈ l, m.lastResponseTimeMs ≤ m'.lastResponseTimeMs := by
  induction l generalizing m with
  | nil => simp [minByTime] at h
  | cons a rest ih =>
    simp only [minByTime] at h
    cases hr : minByTime rest with
    | none =>
      rw [hr] at h
      simp only [Option.some.injEq] at h
      subst h
      intro m' hm'
      rcases List.mem_cons.mp hm' with h2 | h2
      · subst h2
        exact le_refl _
      · cases rest with
        | nil => simp at h2
        | cons c cs => simp [minByTime] at hr; cases hr' : minByTime cs <;>
            rw [hr'] at hr <;> simp at hr
    | some b =>
      rw [hr] at h
      simp only [Option.some.injEq] at h
      subst h
      intro m' hm'
      rcases List.mem_cons.mp hm' with h2 | h2
      · subst h2
        split
        · rename_i hlt
          exact le_of_lt hlt
        · exact le_refl _
      · split
        · exact ih b hr m' h2
        · rename_i hnlt
          exact le_of_not_lt (fun hcon =>
            hnlt (lt_of_le_of_lt (ih b hr m' h2) hcon))

theorem minByTime_eq_none (l : List MirrorRecord) :
    minByTime l = none ↔ l = [] := by
  constructor
  · intro h
    cases l with
    | nil => rfl
    | cons a rest =>
      simp only [minByTime] at h
      cases hr : minByTime rest <;> rw [hr] at h <;> simp at h
  · intro h
    subst h
    rfl

/-- C7: whenever `selectBest` returns a mirror, that mirror belongs to
the registry and is either Healthy with the lowest latency among all
Healthy mirrors, or Unknown with no Healthy mirror present; it returns a
Healthy mirror whenever one exists; it fails iff every mirror is
confirmed Unhealthy; and in the concrete scenario — 50ms Healthy, 10ms
Healthy, 9999ms Unhealthy — it picks the 10ms mirror, and after
`reportFailure` demotes that mirror (three failures at threshold 3) it
picks the 50ms mirror. -/
theorem c7_selectBest_ranking (mirrors : List MirrorRecord) (m : MirrorRecord)
    (hm : selectBest mirrors = some m) :
    (m ∈ mirrors
      ∧ ((m.status = .healthy ∧ ∀ m' ∈ mirrors, m'.status = .healthy →
            m.lastResponseTimeMs ≤ m'.lastResponseTimeMs)
        ∨ (m.status = .unknown ∧ ∀ m' ∈ mirrors, m'.status ≠ .healthy)))
    ∧ (∀ ms : List MirrorRecord, (∃ h ∈ ms, MirrorRecord.status h = .healthy) →
        ∃ b, selectBest ms = some b ∧ b.status = .healthy)
    ∧ (∀ ms : List MirrorRecord,
        selectBest ms = none ↔ ∀ m' ∈ ms, m'.status = .unhealthy)
    ∧ (selectBest [⟨"a", .healthy, 50, 0⟩, ⟨"b", .healthy, 10, 0⟩,
          ⟨"c", .unhealthy, 9999, 0⟩] = some ⟨"b", .healthy, 10, 0⟩
      ∧ selectBest (reportFailure 3 (reportFailure 3 (reportFailure 3
          [⟨"a", .healthy, 50, 0⟩, ⟨"b", .healthy, 10, 0⟩,
           ⟨"c", .unhealthy, 9999, 0⟩] "b") "b") "b") =
        some ⟨"a", .healthy, 50, 0⟩) := by
  have hsel : ∀ ms : List MirrorRecord, ∀ b, selectBest ms = some b →
      (b ∈ ms
        ∧ ((b.status = .healthy ∧ ∀ m' ∈ ms, m'.status = .healthy →
              b.lastResponseTimeMs ≤ m'.lastResponseTimeMs)
          ∨ (b.status = .unknown ∧ ∀ m' ∈ ms, m'.status ≠ .healthy))) := by
    intro ms b hb
    unfold selectBest at hb
    cases hh : minByTime (ms.filter (fun x => x.status == .healthy)) with
    | some c =>
      rw [hh] at hb
      simp only [Option.some.injEq] at hb
      have hb' : b = c := hb.symm
      subst hb'
      have hmem := minByTime_mem _ _ hh
      have hstat : b.status = .healthy := by
        have := (List.mem_filter.mp hmem).2
        simpa using this
      refine ⟨(List.mem_filter.mp hmem).1, Or.inl ⟨hstat, ?_⟩⟩
      intro m' hm' hs'
      exact minByTime_le _ _ hh m'
        (List.mem_filter.mpr ⟨hm', by simpa using hs'⟩)
    | none =>
      rw [hh] at hb
      have hempty : ms.filter (fun x => x.status == .healthy) = [] :=
        (minByTime_eq_none _).mp hh
      have hnoh : ∀ m' ∈ ms, m'.status ≠ .healthy := by
        intro m' hm' hs'
        have : m' ∈ ms.filter (fun x => x.status == .healthy) :=
          List.mem_filter.mpr ⟨hm', by simpa using hs'⟩
        rw [hempty] at this
        simp at this
      cases hu : ms.filter (fun x => x.status == .unknown) with
      | nil =>
        rw [hu] at hb
        simp at hb
      | cons u us =>
        rw [hu] at hb
        simp only [Option.some.injEq] at hb
        have hb' : b = u := hb.symm
        subst hb'
        have humem : b ∈ ms.filter (fun x => x.status == .unknown) := by
          rw [hu]
          exact List.mem_cons_self _ _
        refine ⟨(List.mem_filter.mp humem).1, Or.inr ⟨?_, hnoh⟩⟩
        have := (List.mem_filter.mp humem).2
        simpa using this
  refine ⟨hsel mirrors m hm, ?_, ?_, by decide, by decide⟩
  · intro ms ⟨h, hh, hhs⟩
    cases hb : selectBest ms with
    | none =>
      exfalso
      unfold selectBest at hb
      cases hmin : minByTime (ms.filter (fun x => x.status == .healthy)) with
      | some c => rw [hmin] at hb; simp at hb
      | none =>
        have hempty := (minByTime_eq_none _).mp hmin
        have : h ∈ ms.filter (fun x => x.status == .healthy) :=
          List.mem_filter.mpr ⟨hh, by simpa using hhs⟩
        rw [hempty] at this
        simp at this
    | some b =>
      obtain ⟨hbm, hcase⟩ := hsel ms b hb
      rcases hcase with ⟨hs, _⟩ | ⟨_, hnone⟩
      · exact ⟨b, rfl, hs⟩
      · exact absurd hhs (hnone h hh)
  · intro ms
    constructor
    · intro hnone m' hm'
      unfold selectBest at hnone
      cases hmin : minByTime (ms.filter (fun x => x.status == .healthy)) with
      | some c => rw [hmin] at hnone; simp at hnone
      | none =>
        rw [hmin] at hnone
        cases hu : ms.filter (fun x => x.status == .unknown) with
        | cons u us => rw [hu] at hnone; simp at hnone
        | nil =>
          have hempty := (minByTime_eq_none _).mp hmin
          cases hst : m'.status with
          | healthy =>
            exfalso
            have : m' ∈ ms.filter (fun x => x.status == .healthy) :=
              List.mem_filter.mpr ⟨hm', by simpa using hst⟩
            rw [hempty] at this
            simp at this
          | unknown =>
            exfalso
            have : m' ∈ ms.filter (fun x => x.status == .unknown) :=
              List.mem_filter.mpr ⟨hm', by simpa using hst⟩
            rw [hu] at this
            simp at this
          | unhealthy => rfl
    · intro hall
      unfold selectBest
      have hempty : ms.filter (fun x => x.status == .healthy) = [] := by
        rw [List.filter_eq_nil_iff]
        intro m' hm'
        simp [hall m' hm']
      have huempty : ms.filter (fun x => x.status == .unknown) = [] := by
        rw [List.filter_eq_nil_iff]
        intro m' hm'
        simp [hall m' hm']
      rw [hempty, huempty]
      rfl

/-- C7 witness: in the three-mirror scenario `selectBest` picks the
fastest Healthy mirror, which indeed belongs to the registry and is
Healthy with minimal latency among Healthy mirrors. -/
theorem c7_selectBest_ranking_witness :
    (⟨"b", .healthy, 10, 0⟩ : MirrorRecord) ∈
      [(⟨"a", .healthy, 50, 0⟩ : MirrorRecord), ⟨"b", .healthy, 10, 0⟩,
       ⟨"c", .unhealthy, 9999, 0⟩]
    ∧ (((⟨"b", .healthy, 10, 0⟩ : MirrorRecord).status = .healthy
        ∧ ∀ m' ∈ [(⟨"a", .healthy, 50, 0⟩ : MirrorRecord),
            ⟨"b", .healthy, 10, 0⟩, ⟨"c", .unhealthy, 9999, 0⟩],
          m'.status = .healthy →
          (⟨"b", .healthy, 10, 0⟩ : MirrorRecord).lastResponseTimeMs ≤
            m'.lastResponseTimeMs) ∨
      ((⟨"b", .healthy, 10, 0⟩ : MirrorRecord).status = .unknown
        ∧ ∀ m' ∈ [(⟨"a", .healthy, 50, 0⟩ : MirrorRecord),
            ⟨"b", .healthy, 10, 0⟩, ⟨"c", .unhealthy, 9999, 0⟩],
          m'.status ≠ .healthy)) :=
  (c7_selectBest_ranking
    [⟨"a", .healthy, 50, 0⟩, ⟨"b", .healthy, 10, 0⟩, ⟨"c", .unhealthy, 9999, 0⟩]
    ⟨"b", .healthy, 10, 0⟩ (by decide)).1

end PaperSearch
